import Mathlib

/-!
Shallow embedding of `src/replaceAlgos.c` (a Monte-Carlo simulation of the
LRU, FIFO and Clock page-replacement policies) together with proofs of the
specification claims about it.

Modelling conventions:
* C `int` page identifiers are modelled as `Int`; the sentinel `INT_MIN`
  marking an unoccupied frame slot is the concrete integer `-2147483648`.
* The fixed-size C arrays `set[wss]`, `ru[wss]`, `secondChance[wss]` are
  modelled as `List Int` of length `wss`; `array[i] = v` becomes `List.set`.
* The C policy functions iterate over a `data` array of a fixed build-time
  length (`TRACES`); the embedding iterates over an arbitrary list `trace`,
  of which the C array is the instance of length 1000.
* Undefined behaviour (reading the uninitialised `lru` variable when the
  backward scan in `LRU` falls off the front of the trace, or indexing with
  the `-1` returned by `getIndex` on a missing value) is modelled by the
  `none` case of an `Option` result.
* The unbounded `while` sweep in `Clock` is modelled with explicit fuel
  `wss + 1`; running out of fuel is again the `none` case, and the proofs
  show the fuel is never exhausted.
-/

/-- The sentinel marking an unoccupied slot: C's `INT_MIN` for 32-bit `int`,
used by `LRU`, `FIFO` and `Clock` to pre-fill their frame arrays. -/
def intMin : Int := -2147483648

/-- Embedding of `arrayContains` (replaceAlgos.c lines 432-441): linear scan,
returning true on the first slot equal to `value`.  The C `size` argument is
the length of the modelled list. -/
def arrayContains : List Int → Int → Bool
  | [], _ => false
  | a :: rest, value => if value = a then true else arrayContains rest value

/-- Embedding of `getIndex` (replaceAlgos.c lines 459-468): index of the first
slot equal to `value`, scanning from slot 0.  The C function returns `-1`
when the value is absent; that case is rendered as `none`. -/
def getIndex : List Int → Int → Option Nat
  | [], _ => none
  | a :: rest, value =>
    if a = value then some 0 else (getIndex rest value).map (· + 1)

/-- Number of distinct page identifiers in a trace. -/
def distinctCount (trace : List Int) : Nat := trace.dedup.length

/-- State of the `LRU` function (replaceAlgos.c lines 164-238): the frame
array `set`, the occupancy counter `size` and the running fault counter. -/
structure LRUState where
  set : List Int
  size : Nat
  faults : Nat
deriving DecidableEq, Repr

/-- Embedding of the backward recency scan of `LRU` (replaceAlgos.c lines
200-224).  `scanList` is the reversed trace prefix `data[i], …, data[0]`, so
walking it front to back is exactly the C loop `for (j = i; j >= 0; j--)`.
`fr` is the frame array `set`, `ru`/`c` are the recency array and its fill
counter.  Returns the victim `lru` chosen at the `break`, or `none` when the
loop runs past `j = 0` without breaking (in which case the C code goes on to
read the uninitialised variable `lru`). -/
def lruScan (wss : Nat) (fr : List Int) : List Int → Nat → List Int → Option Int
  | _, _, [] => none
  | ru, c, d :: rest =>
    if arrayContains fr d then
      if arrayContains ru d then
        if c = wss then some d else lruScan wss fr ru c rest
      else
        if c + 1 = wss then some d else lruScan wss fr (ru.set c d) (c + 1) rest
    else lruScan wss fr ru c rest

/-- One iteration of the main loop of `LRU` (replaceAlgos.c lines 178-234) on
reference `d`; `scanList` is the reversed trace prefix up to and including
`d`.  Hit: state unchanged.  Miss with room: occupy slot `size`.  Miss with a
full frame: run the backward scan, replace the victim's slot, count a fault. -/
def lruStep (wss : Nat) (scanList : List Int) (d : Int) (s : LRUState) : Option LRUState :=
  if arrayContains s.set d then
    some s
  else if s.size ≠ wss then
    some ⟨s.set.set s.size d, s.size + 1, s.faults⟩
  else
    match lruScan wss s.set (List.replicate wss intMin) 0 scanList with
    | none => none
    | some lru =>
      match getIndex s.set lru with
      | none => none
      | some c => some ⟨s.set.set c d, s.size, s.faults + 1⟩

/-- The main loop of `LRU` over the remaining trace; `seen` is the reversed
list of references already processed. -/
def lruRunAux (wss : Nat) : List Int → List Int → LRUState → Option LRUState
  | _, [], s => some s
  | seen, d :: rest, s =>
    match lruStep wss (d :: seen) d s with
    | none => none
    | some s2 => lruRunAux wss (d :: seen) rest s2

/-- Final state of `LRU` on a trace, starting from the sentinel-filled frame
(replaceAlgos.c lines 168-175). -/
def lruFinal (wss : Nat) (trace : List Int) : Option LRUState :=
  lruRunAux wss [] trace ⟨List.replicate wss intMin, 0, 0⟩

/-- Embedding of `LRU` (replaceAlgos.c lines 164-238): the returned fault
count, or `none` on the undefined-behaviour path. -/
def LRUrun (wss : Nat) (trace : List Int) : Option Nat :=
  (lruFinal wss trace).map LRUState.faults

/-- State of the `FIFO` function (replaceAlgos.c lines 257-302). -/
structure FIFOState where
  set : List Int
  size : Nat
  fifoIndex : Nat
  faults : Nat
deriving DecidableEq, Repr

/-- One iteration of the main loop of `FIFO` (replaceAlgos.c lines 270-298)
on reference `d`. -/
def fifoStep (wss : Nat) (d : Int) (s : FIFOState) : FIFOState :=
  if arrayContains s.set d then
    s
  else if s.size ≠ wss then
    ⟨s.set.set s.size d, s.size + 1, s.fifoIndex, s.faults⟩
  else
    ⟨s.set.set s.fifoIndex d, s.size,
      if s.fifoIndex + 1 = wss then 0 else s.fifoIndex + 1, s.faults + 1⟩

/-- The main loop of `FIFO` over the remaining trace. -/
def fifoRunAux (wss : Nat) : List Int → FIFOState → FIFOState
  | [], s => s
  | d :: rest, s => fifoRunAux wss rest (fifoStep wss d s)

/-- Final state of `FIFO` on a trace, starting from the sentinel-filled frame
(replaceAlgos.c lines 263-266). -/
def fifoFinal (wss : Nat) (trace : List Int) : FIFOState :=
  fifoRunAux wss trace ⟨List.replicate wss intMin, 0, 0, 0⟩

/-- Embedding of `FIFO` (replaceAlgos.c lines 257-302): the returned fault
count. -/
def FIFOrun (wss : Nat) (trace : List Int) : Nat :=
  (fifoFinal wss trace).faults

/-- State of the `Clock` function (replaceAlgos.c lines 321-385): the frame
array, the per-slot use bits `secondChance`, the occupancy counter, the clock
hand `fifoIndex` and the fault counter. -/
structure ClockState where
  set : List Int
  secondChance : List Int
  size : Nat
  fifoIndex : Nat
  faults : Nat
deriving DecidableEq, Repr

/-- Embedding of the eviction sweep of `Clock` (replaceAlgos.c lines 349-360):
while the slot at the hand has a nonzero use bit, clear it and advance the
hand, wrapping at `wss`.  The C `while` loop is given explicit fuel; `none`
models running out of fuel, which the termination proof rules out for fuel
`wss + 1`. -/
def clockSweep (wss : Nat) : Nat → List Int → Nat → Option (List Int × Nat)
  | 0, _, _ => none
  | fuel + 1, sc, idx =>
    if sc.getD idx 0 ≠ 0 then
      clockSweep wss fuel (sc.set idx 0) (if idx + 1 = wss then 0 else idx + 1)
    else some (sc, idx)

/-- One iteration of the main loop of `Clock` (replaceAlgos.c lines 335-381)
on reference `d`.  Hit: set the use bit of the hit slot.  Miss with room:
occupy slot `size`.  Miss with a full frame: sweep, evict at the hand,
advance the hand, count a fault. -/
def clockStep (wss : Nat) (d : Int) (s : ClockState) : Option ClockState :=
  if arrayContains s.set d then
    match getIndex s.set d with
    | none => none
    | some k => some ⟨s.set, s.secondChance.set k 1, s.size, s.fifoIndex, s.faults⟩
  else if s.size ≠ wss then
    some ⟨s.set.set s.size d, s.secondChance, s.size + 1, s.fifoIndex, s.faults⟩
  else
    match clockSweep wss (wss + 1) s.secondChance s.fifoIndex with
    | none => none
    | some (sc, idx) =>
      some ⟨s.set.set idx d, sc, s.size,
        if idx + 1 = wss then 0 else idx + 1, s.faults + 1⟩

/-- The main loop of `Clock` over the remaining trace. -/
def clockRunAux (wss : Nat) : List Int → ClockState → Option ClockState
  | [], s => some s
  | d :: rest, s =>
    match clockStep wss d s with
    | none => none
    | some s2 => clockRunAux wss rest s2

/-- Final state of `Clock` on a trace, starting from the sentinel-filled
frame with all use bits 0 (replaceAlgos.c lines 327-331). -/
def clockFinal (wss : Nat) (trace : List Int) : Option ClockState :=
  clockRunAux wss trace ⟨List.replicate wss intMin, List.replicate wss 0, 0, 0, 0⟩

/-- Embedding of `Clock` (replaceAlgos.c lines 321-385): the returned fault
count, or `none` if the sweep fuel were ever exhausted. -/
def ClockRun (wss : Nat) (trace : List Int) : Option Nat :=
  (clockFinal wss trace).map ClockState.faults

/-- C's `RAND_MAX` on the reference platform (glibc): `rand()` returns an
integer in `[0, RAND_MAX]` inclusive. -/
def RAND_MAX : Nat := 2147483647

/-- The two `rand()` draws of `normal` (replaceAlgos.c lines 401-415): the
first is re-drawn while `r1 == 0.0`, i.e. while the raw draw is 0; the second
is taken as-is.  `stream` is the stream of raw `rand()` outputs; `none`
models a stream that ends before both draws succeed. -/
def normalDraws : List Nat → Option (Nat × Nat)
  | [] => none
  | r :: rest =>
    if r = 0 then normalDraws rest
    else
      match rest with
      | [] => none
      | r2 :: _ => some (r, r2)

/-- The uniform variates `r1 = rand()/RAND_MAX` and `r2 = rand()/RAND_MAX` of
`normal` (replaceAlgos.c lines 407 and 411), as exact rationals. -/
def normalU1U2 (stream : List Nat) : Option (ℚ × ℚ) :=
  (normalDraws stream).map fun p =>
    ((p.1 : ℚ) / (RAND_MAX : ℚ), (p.2 : ℚ) / (RAND_MAX : ℚ))

/-- The C cast `(int) x` on the final line of `normal`: truncation toward
zero. -/
def truncTowardZero (q : ℚ) : Int :=
  if 0 ≤ q then ⌊q⌋ else ⌈q⌉

/-- Abstract interpretations of the floating-point library calls made by
`normal` (`sqrt`, `log`, `cos` on `double`, and the constant `M_PI`).  The
exact IEEE-754 values are not modelled; the embedding is parametric in them
and verifies how `normal` wires them together. -/
structure FloatOps where
  fsqrt : ℚ → ℚ
  flog : ℚ → ℚ
  fcos : ℚ → ℚ
  fpi : ℚ

/-- Embedding of `normal` (replaceAlgos.c lines 401-415), parametric in the
floating-point primitives: draw `r1` (re-drawn until nonzero) and `r2` from
the `rand()` stream, form the Box-Muller expression
`sqrt(-2 log r1) * cos(2 pi r2) * sd + mean`, and truncate toward zero. -/
def normal (ops : FloatOps) (mean sd : Int) (stream : List Nat) : Option Int :=
  (normalU1U2 stream).map fun u =>
    truncTowardZero
      ((ops.fsqrt (-2 * ops.flog u.1) * ops.fcos (2 * ops.fpi * u.2)) * (sd : ℚ) + (mean : ℚ))

/-- Embedding of the averaging step of `main` (replaceAlgos.c lines 102-106):
`LRUResults[wss] /= TRACES` with C `int` division, which truncates toward
zero (`Int.tdiv`).  `total` is the accumulated fault sum (a sum of
nonnegative fault counts) and `trials` the trial count `TRACES`. -/
def driverAverage (total trials : Nat) : Int :=
  Int.tdiv (total : Int) (trials : Int)

/-! ### Basic list toolkit -/

theorem arrayContains_iff (l : List Int) (v : Int) : arrayContains l v = true ↔ v ∈ l := by
  induction l with
  | nil => simp [arrayContains]
  | cons a rest ih =>
    by_cases h : v = a
    · simp [arrayContains, h]
    · simp [arrayContains, h, ih]

theorem arrayContains_eq_false (l : List Int) (v : Int) :
    arrayContains l v = false ↔ v ∉ l := by
  rw [← arrayContains_iff]
  cases h : arrayContains l v <;> simp

theorem getIndex_some_spec :
    ∀ (l : List Int) (v : Int) (c : Nat),
      getIndex l v = some c → c < l.length ∧ l.getD c 0 = v := by
  intro l
  induction l with
  | nil => intro v c h; simp [getIndex] at h
  | cons a rest ih =>
    intro v c h
    by_cases hav : a = v
    · simp [getIndex, hav] at h
      subst h
      simpa [List.getD] using hav
    · simp [getIndex, hav, Option.map_eq_some'] at h
      obtain ⟨c', hc', hcc⟩ := h
      obtain ⟨h1, h2⟩ := ih v c' hc'
      subst hcc
      exact ⟨by simpa using Nat.succ_lt_succ h1, by simpa [List.getD] using h2⟩

theorem getIndex_isSome_of_mem :
    ∀ (l : List Int) (v : Int), v ∈ l → ∃ c, getIndex l v = some c := by
  intro l
  induction l with
  | nil => intro v h; simp at h
  | cons a rest ih =>
    intro v h
    by_cases hav : a = v
    · exact ⟨0, by simp [getIndex, hav]⟩
    · have hv : v ∈ rest := by
        rcases List.mem_cons.mp h with h1 | h1
        · exact absurd h1.symm hav
        · exact h1
      obtain ⟨c, hc⟩ := ih v hv
      exact ⟨c + 1, by simp [getIndex, hav, hc]⟩

theorem getIndex_first_sentinel :
    ∀ (occ rest : List Int) (v : Int), v ∉ occ →
      getIndex (occ ++ v :: rest) v = some occ.length := by
  intro occ
  induction occ with
  | nil => intro rest v _; simp [getIndex]
  | cons a occ' ih =>
    intro rest v hv
    have hav : ¬ a = v := fun h => hv (by simp [h])
    have hv' : v ∉ occ' := fun h => hv (by simp [h])
    simp [getIndex, hav, ih rest v hv']

theorem mem_of_mem_set :
    ∀ (l : List Int) (i : Nat) (a x : Int), x ∈ l.set i a → x = a ∨ x ∈ l := by
  intro l
  induction l with
  | nil => intro i a x h; simp [List.set] at h
  | cons b t ih =>
    intro i a x h
    cases i with
    | zero =>
      rcases List.mem_cons.mp h with h1 | h1
      · exact Or.inl h1
      · exact Or.inr (List.mem_cons_of_mem _ h1)
    | succ i =>
      rcases List.mem_cons.mp h with h1 | h1
      · exact Or.inr (by simp [h1])
      · rcases ih i a x h1 with h2 | h2
        · exact Or.inl h2
        · exact Or.inr (List.mem_cons_of_mem _ h2)

theorem nodup_set :
    ∀ (l : List Int) (i : Nat) (a : Int), l.Nodup → a ∉ l → (l.set i a).Nodup := by
  intro l
  induction l with
  | nil => intro i a _ _; simp [List.set]
  | cons b t ih =>
    intro i a hnd ha
    have hbt : b ∉ t := (List.nodup_cons.mp hnd).1
    have hts : t.Nodup := (List.nodup_cons.mp hnd).2
    cases i with
    | zero =>
      refine List.nodup_cons.mpr ⟨fun h => ha (List.mem_cons_of_mem _ h), hts⟩
    | succ i =>
      refine List.nodup_cons.mpr ⟨?_, ih i a hts (fun h => ha (List.mem_cons_of_mem _ h))⟩
      intro hmem
      rcases mem_of_mem_set t i a b hmem with h1 | h1
      · exact ha (by simp [h1])
      · exact hbt h1

theorem getD_set_self :
    ∀ (l : List Int) (i : Nat) (a : Int), i < l.length → (l.set i a).getD i 0 = a := by
  intro l
  induction l with
  | nil => intro i a h; simp at h
  | cons b t ih =>
    intro i a h
    cases i with
    | zero => rfl
    | succ i => exact ih i a (by simpa using Nat.lt_of_succ_lt_succ h)

theorem getD_set_ne :
    ∀ (l : List Int) (i k : Nat) (a : Int), i ≠ k → (l.set i a).getD k 0 = l.getD k 0 := by
  intro l
  induction l with
  | nil => intro i k a _; simp [List.set]
  | cons b t ih =>
    intro i k a hik
    cases i with
    | zero =>
      cases k with
      | zero => exact absurd rfl hik
      | succ k => rfl
    | succ i =>
      cases k with
      | zero => rfl
      | succ k => exact ih i k a (fun h => hik (by rw [h]))

theorem getD_mem :
    ∀ (l : List Int) (k : Nat), k < l.length → l.getD k 0 ∈ l := by
  intro l
  induction l with
  | nil => intro k h; simp at h
  | cons b t ih =>
    intro k h
    cases k with
    | zero => simp [List.getD]
    | succ k =>
      exact List.mem_cons_of_mem _ (ih k (by simpa using Nat.lt_of_succ_lt_succ h))

theorem set_append_replicate :
    ∀ (occ : List Int) (m : Nat) (x e : Int),
      (occ ++ List.replicate (m + 1) x).set occ.length e = occ ++ e :: List.replicate m x := by
  intro occ
  induction occ with
  | nil => intro m x e; simp [List.replicate_succ]
  | cons a occ' ih =>
    intro m x e
    show a :: ((occ' ++ List.replicate (m + 1) x).set occ'.length e)
        = a :: (occ' ++ e :: List.replicate m x)
    exact congrArg _ (ih m x e)

theorem mem_append_replicate (occ : List Int) (m : Nat) (x v : Int) :
    v ∈ occ ++ List.replicate m x ↔ v ∈ occ ∨ (m ≠ 0 ∧ v = x) := by
  simp [List.mem_append, List.mem_replicate]

theorem nodup_length_le (l t : List Int) (hn : l.Nodup) (hsub : ∀ v ∈ l, v ∈ t) :
    l.length ≤ t.dedup.length := by
  have h1 : l.toFinset.card = l.length := List.toFinset_card_of_nodup hn
  have h2 : t.toFinset.card = t.dedup.length := List.card_toFinset t
  have h3 : l.toFinset ⊆ t.toFinset := by
    intro x hx
    rw [List.mem_toFinset] at hx ⊢
    exact hsub x hx
  calc l.length = l.toFinset.card := h1.symm
    _ ≤ t.toFinset.card := Finset.card_le_card h3
    _ = t.dedup.length := h2

/-! ### The working-set-frame invariant

Each policy's frame array always splits as a duplicate-free occupied block
followed by sentinel padding; every occupied value is a previously processed
reference. -/

/-- Frame invariant of the `set` array shared by `LRU`, `FIFO` and `Clock`:
`fset` is an occupied block `occ` (duplicate-free, all of whose values were
already referenced, i.e. are in `seen`) followed by `wss - size` sentinel
slots, and `occ` has exactly `size` entries. -/
def FrameOk (wss : Nat) (seen : List Int) (fset : List Int) (size : Nat) : Prop :=
  ∃ occ : List Int,
    fset = occ ++ List.replicate (wss - size) intMin ∧
    occ.length = size ∧ size ≤ wss ∧ occ.Nodup ∧ (∀ v ∈ occ, v ∈ seen)

theorem FrameOk.mono {wss : Nat} {seen seen' fset : List Int} {size : Nat}
    (h : FrameOk wss seen fset size) (hs : ∀ v ∈ seen, v ∈ seen') :
    FrameOk wss seen' fset size := by
  obtain ⟨occ, h1, h2, h3, h4, h5⟩ := h
  exact ⟨occ, h1, h2, h3, h4, fun v hv => hs v (h5 v hv)⟩

theorem FrameOk.length_eq {wss : Nat} {seen fset : List Int} {size : Nat}
    (h : FrameOk wss seen fset size) : fset.length = wss := by
  obtain ⟨occ, h1, h2, h3, _, _⟩ := h
  subst h1
  simp [h2]
  omega

theorem FrameOk.sentinel_mem {wss : Nat} {seen fset : List Int} {size : Nat}
    (h : FrameOk wss seen fset size) (hlt : size < wss) : intMin ∈ fset := by
  obtain ⟨occ, h1, _, _, _, _⟩ := h
  subst h1
  rw [mem_append_replicate]
  exact Or.inr ⟨by omega, rfl⟩

theorem FrameOk.full_eq {wss : Nat} {seen fset : List Int}
    (h : FrameOk wss seen fset wss) :
    fset.Nodup ∧ (∀ v ∈ fset, v ∈ seen) := by
  obtain ⟨occ, h1, h2, _, h4, h5⟩ := h
  subst h1
  simp only [Nat.sub_self, List.replicate_zero, List.append_nil]
  exact ⟨h4, h5⟩

theorem frame_insert {wss : Nat} {seen fset : List Int} {size : Nat} (d : Int)
    (h : FrameOk wss seen fset size) (hd : d ∉ fset) (hsz : size ≠ wss) :
    FrameOk wss (d :: seen) (fset.set size d) (size + 1) := by
  obtain ⟨occ, h1, h2, h3, h4, h5⟩ := h
  have hlt : size < wss := Nat.lt_of_le_of_ne h3 hsz
  have hm : wss - size = (wss - (size + 1)) + 1 := by omega
  refine ⟨occ ++ [d], ?_, by simp [h2], by omega, ?_, ?_⟩
  · rw [h1, hm, ← h2, set_append_replicate]
    simp
  · have hdo : d ∉ occ := fun hmem => hd (by rw [h1]; exact List.mem_append_left _ hmem)
    simp [List.nodup_append, h4, hdo]
  · intro v hv
    rcases List.mem_append.mp hv with h6 | h6
    · exact List.mem_cons_of_mem _ (h5 v h6)
    · simp at h6
      simp [h6]

theorem frame_evict {wss : Nat} {seen fset : List Int} (d : Int) (c : Nat)
    (h : FrameOk wss seen fset wss) (hd : d ∉ fset) :
    FrameOk wss (d :: seen) (fset.set c d) wss := by
  obtain ⟨hnd, hmem⟩ := h.full_eq
  have hlen := h.length_eq
  refine ⟨fset.set c d, by simp, by simp [hlen], le_refl _, nodup_set fset c d hnd hd, ?_⟩
  intro v hv
  rcases mem_of_mem_set fset c d v hv with h1 | h1
  · simp [h1]
  · exact List.mem_cons_of_mem _ (hmem v h1)

/-- The occupied (non-sentinel) slots of a frame array. -/
def occupiedSlots (fset : List Int) : List Int :=
  fset.filter (fun v => v != intMin)

theorem frameOk_occupied {wss : Nat} {seen fset : List Int} {size : Nat}
    (h : FrameOk wss seen fset size) :
    (occupiedSlots fset).length ≤ wss ∧ (occupiedSlots fset).Nodup := by
  obtain ⟨occ, h1, h2, h3, h4, _⟩ := h
  subst h1
  have hrep : (List.replicate (wss - size) intMin).filter (fun v => v != intMin) = [] := by
    induction (wss - size) with
    | zero => rfl
    | succ n ih => simp [List.replicate_succ]
  have hfil : occupiedSlots (occ ++ List.replicate (wss - size) intMin)
      = occ.filter (fun v => v != intMin) := by
    simp [occupiedSlots, List.filter_append, hrep]
  constructor
  · rw [hfil]
    calc (occ.filter (fun v => v != intMin)).length ≤ occ.length :=
          List.length_filter_le _ _
      _ ≤ wss := by omega
  · rw [hfil]
    exact h4.sublist (List.filter_sublist _)

/-! ### Exact occupancy: while the distinct page count fits in the frame,
the occupied block is exactly the set of distinct non-sentinel references
seen so far, and no eviction (hence no fault) ever happens. -/

/-- Strengthening of `FrameOk`: the occupied block holds exactly the distinct
non-sentinel references processed so far. -/
def FrameExact (wss : Nat) (seen fset : List Int) (size : Nat) : Prop :=
  ∃ occ : List Int,
    fset = occ ++ List.replicate (wss - size) intMin ∧
    occ.length = size ∧ size ≤ wss ∧ occ.Nodup ∧
    (∀ v, v ∈ occ ↔ (v ∈ seen ∧ v ≠ intMin))

theorem frameExact_hit {wss : Nat} {seen fset : List Int} {size : Nat} {d : Int}
    (h : FrameExact wss seen fset size) (hd : d ∈ fset) :
    FrameExact wss (d :: seen) fset size := by
  obtain ⟨occ, h1, h2, h3, h4, h5⟩ := h
  refine ⟨occ, h1, h2, h3, h4, fun v => ⟨fun hv => ?_, fun hv => ?_⟩⟩
  · obtain ⟨hv1, hv2⟩ := (h5 v).mp hv
    exact ⟨List.mem_cons_of_mem _ hv1, hv2⟩
  · obtain ⟨hv1, hv2⟩ := hv
    rcases List.mem_cons.mp hv1 with h6 | h6
    · subst h6
      rw [h1, mem_append_replicate] at hd
      rcases hd with h7 | h7
      · exact h7
      · exact absurd h7.2 hv2
    · exact (h5 v).mpr ⟨h6, hv2⟩

theorem frameExact_miss {wss : Nat} {t seen fset : List Int} {size : Nat} {d : Int}
    (hw : distinctCount t ≤ wss)
    (hseen : ∀ v ∈ seen, v ∈ t) (hd : d ∈ t)
    (h : FrameExact wss seen fset size) (hmiss : d ∉ fset) :
    size ≠ wss ∧ FrameExact wss (d :: seen) (fset.set size d) (size + 1) := by
  obtain ⟨occ, h1, h2, h3, h4, h5⟩ := h
  have hocc_t : ∀ v ∈ occ, v ∈ t := by
    intro v hv
    exact hseen v ((h5 v).mp hv).1
  have hocc_im : ∀ v ∈ occ, v ≠ intMin := fun v hv => ((h5 v).mp hv).2
  have hdocc : d ∉ occ := fun hmem => hmiss (by rw [h1]; exact List.mem_append_left _ hmem)
  have hdim : d ≠ intMin := by
    intro hdi
    rcases Nat.lt_or_ge size wss with hlt | hge
    · apply hmiss
      rw [h1, mem_append_replicate]
      exact Or.inr ⟨by omega, hdi⟩
    · have hsz : size = wss := le_antisymm h3 hge
      have hnd : (d :: occ).Nodup := by
        refine List.nodup_cons.mpr ⟨hdocc, h4⟩
      have hsub : ∀ v ∈ d :: occ, v ∈ t := by
        intro v hv
        rcases List.mem_cons.mp hv with h6 | h6
        · exact h6 ▸ hd
        · exact hocc_t v h6
      have := nodup_length_le (d :: occ) t hnd hsub
      simp [h2, hsz] at this
      unfold distinctCount at hw
      omega
  have hlt : size < wss := by
    have hnd : (d :: occ).Nodup := List.nodup_cons.mpr ⟨hdocc, h4⟩
    have hsub : ∀ v ∈ d :: occ, v ∈ t := by
      intro v hv
      rcases List.mem_cons.mp hv with h6 | h6
      · exact h6 ▸ hd
      · exact hocc_t v h6
    have := nodup_length_le (d :: occ) t hnd hsub
    unfold distinctCount at hw
    simp [h2] at this
    omega
  refine ⟨by omega, occ ++ [d], ?_, by simp [h2], by omega, ?_, ?_⟩
  · have hm : wss - size = (wss - (size + 1)) + 1 := by omega
    rw [h1, hm, ← h2, set_append_replicate]
    simp
  · simp [List.nodup_append, h4, hdocc]
  · intro v
    constructor
    · intro hv
      rcases List.mem_append.mp hv with h6 | h6
      · obtain ⟨hv1, hv2⟩ := (h5 v).mp h6
        exact ⟨List.mem_cons_of_mem _ hv1, hv2⟩
      · simp at h6
        subst h6
        exact ⟨List.mem_cons_self _ _, hdim⟩
    · intro ⟨hv1, hv2⟩
      rcases List.mem_cons.mp hv1 with h6 | h6
      · subst h6
        simp
      · exact List.mem_append_left _ ((h5 v).mpr ⟨h6, hv2⟩)

/-! ### Step lemmas: each policy's step preserves the frame invariant -/

theorem lruStep_frameOk {wss : Nat} {seen scanL : List Int} {d : Int} {s s2 : LRUState}
    (h : FrameOk wss seen s.set s.size)
    (hstep : lruStep wss scanL d s = some s2) :
    FrameOk wss (d :: seen) s2.set s2.size := by
  unfold lruStep at hstep
  cases hb : arrayContains s.set d with
  | true =>
    rw [hb] at hstep
    simp at hstep
    subst hstep
    exact h.mono (fun v hv => List.mem_cons_of_mem _ hv)
  | false =>
    rw [hb] at hstep
    have hmem : d ∉ s.set := (arrayContains_eq_false _ _).mp hb
    by_cases hsz : s.size = wss
    · cases hscan : lruScan wss s.set (List.replicate wss intMin) 0 scanL with
      | none => simp [hsz, hscan] at hstep
      | some lru =>
        cases hgi : getIndex s.set lru with
        | none => simp [hsz, hscan, hgi] at hstep
        | some c =>
          simp [hsz, hscan, hgi] at hstep
          subst hstep
          have h' : FrameOk wss seen s.set wss := hsz ▸ h
          have := frame_evict d c h' hmem
          simpa [hsz] using this
    · simp [hsz] at hstep
      subst hstep
      exact frame_insert d h hmem hsz

theorem fifoStep_frameOk {wss : Nat} {seen : List Int} {d : Int} {s : FIFOState}
    (h : FrameOk wss seen s.set s.size) :
    FrameOk wss (d :: seen) (fifoStep wss d s).set (fifoStep wss d s).size := by
  unfold fifoStep
  cases hb : arrayContains s.set d with
  | true =>
    simp only [hb, if_true]
    exact h.mono (fun v hv => List.mem_cons_of_mem _ hv)
  | false =>
    have hmem : d ∉ s.set := (arrayContains_eq_false _ _).mp hb
    by_cases hsz : s.size = wss
    · simp only [hb, hsz, Bool.false_eq_true, if_false, ne_eq, not_true_eq_false]
      have h' : FrameOk wss seen s.set wss := hsz ▸ h
      have := frame_evict d s.fifoIndex h' hmem
      simpa [hsz] using this
    · simp only [hb, Bool.false_eq_true, if_false, ne_eq, hsz, not_false_eq_true, if_true]
      exact frame_insert d h hmem hsz

theorem clockStep_frameOk {wss : Nat} {seen : List Int} {d : Int} {s s2 : ClockState}
    (h : FrameOk wss seen s.set s.size)
    (hstep : clockStep wss d s = some s2) :
    FrameOk wss (d :: seen) s2.set s2.size := by
  unfold clockStep at hstep
  cases hb : arrayContains s.set d with
  | true =>
    rw [hb] at hstep
    cases hgi : getIndex s.set d with
    | none => rw [hgi] at hstep; simp at hstep
    | some k =>
      rw [hgi] at hstep
      simp at hstep
      subst hstep
      exact h.mono (fun v hv => List.mem_cons_of_mem _ hv)
  | false =>
    rw [hb] at hstep
    have hmem : d ∉ s.set := (arrayContains_eq_false _ _).mp hb
    by_cases hsz : s.size = wss
    · cases hsw : clockSweep wss (wss + 1) s.secondChance s.fifoIndex with
      | none => simp [hsz, hsw] at hstep
      | some p =>
        obtain ⟨sc2, idx2⟩ := p
        simp [hsz, hsw] at hstep
        subst hstep
        have h' : FrameOk wss seen s.set wss := hsz ▸ h
        have := frame_evict d idx2 h' hmem
        simpa [hsz] using this
    · simp [hsz] at hstep
      subst hstep
      exact frame_insert d h hmem hsz

/-! ### Run-level lemmas -/

theorem lruRunAux_frameOk (wss : Nat) :
    ∀ (rest seen : List Int) (s s' : LRUState),
      FrameOk wss seen s.set s.size →
      lruRunAux wss seen rest s = some s' →
      ∃ seen2, FrameOk wss seen2 s'.set s'.size := by
  intro rest
  induction rest with
  | nil =>
    intro seen s s' h he
    simp [lruRunAux] at he
    subst he
    exact ⟨seen, h⟩
  | cons d rest' ih =>
    intro seen s s' h he
    simp only [lruRunAux] at he
    cases hstep : lruStep wss (d :: seen) d s with
    | none => rw [hstep] at he; simp at he
    | some s2 =>
      rw [hstep] at he
      exact ih (d :: seen) s2 s' (lruStep_frameOk h hstep) he

theorem fifoRunAux_frameOk (wss : Nat) :
    ∀ (rest seen : List Int) (s : FIFOState),
      FrameOk wss seen s.set s.size →
      ∃ seen2, FrameOk wss seen2 (fifoRunAux wss rest s).set (fifoRunAux wss rest s).size := by
  intro rest
  induction rest with
  | nil => intro seen s h; exact ⟨seen, h⟩
  | cons d rest' ih =>
    intro seen s h
    exact ih (d :: seen) (fifoStep wss d s) (fifoStep_frameOk h)

theorem clockRunAux_frameOk (wss : Nat) :
    ∀ (rest seen : List Int) (s s' : ClockState),
      FrameOk wss seen s.set s.size →
      clockRunAux wss rest s = some s' →
      ∃ seen2, FrameOk wss seen2 s'.set s'.size := by
  intro rest
  induction rest with
  | nil =>
    intro seen s s' h he
    simp [clockRunAux] at he
    subst he
    exact ⟨seen, h⟩
  | cons d rest' ih =>
    intro seen s s' h he
    simp only [clockRunAux] at he
    cases hstep : clockStep wss d s with
    | none => rw [hstep] at he; simp at he
    | some s2 =>
      rw [hstep] at he
      exact ih (d :: seen) s2 s' (clockStep_frameOk h hstep) he

theorem frameOk_init (wss : Nat) :
    FrameOk wss [] (List.replicate wss intMin) 0 :=
  ⟨[], by simp, rfl, Nat.zero_le _, List.nodup_nil, by simp⟩

theorem frameExact_init (wss : Nat) :
    FrameExact wss [] (List.replicate wss intMin) 0 :=
  ⟨[], by simp, rfl, Nat.zero_le _, List.nodup_nil, by simp⟩

/-! ### Zero-fault runs while the distinct page count fits in the frame -/

theorem lru_zero_aux (wss : Nat) (t : List Int) (hw : distinctCount t ≤ wss) :
    ∀ (rest seen : List Int) (s : LRUState),
      (∀ v ∈ seen, v ∈ t) → (∀ v ∈ rest, v ∈ t) →
      FrameExact wss seen s.set s.size →
      ∃ s', lruRunAux wss seen rest s = some s' ∧ s'.faults = s.faults := by
  intro rest
  induction rest with
  | nil => intro seen s _ _ _; exact ⟨s, rfl, rfl⟩
  | cons d rest' ih =>
    intro seen s hseen hrest hfe
    have hd : d ∈ t := hrest d (List.mem_cons_self _ _)
    have hrest' : ∀ v ∈ rest', v ∈ t := fun v hv => hrest v (List.mem_cons_of_mem _ hv)
    have hseen' : ∀ v ∈ d :: seen, v ∈ t := by
      intro v hv
      rcases List.mem_cons.mp hv with h1 | h1
      · exact h1 ▸ hd
      · exact hseen v h1
    cases hc : arrayContains s.set d with
    | true =>
      have hmem : d ∈ s.set := (arrayContains_iff _ _).mp hc
      have hstep : lruStep wss (d :: seen) d s = some s := by
        simp [lruStep, hc]
      obtain ⟨s', h1, h2⟩ := ih (d :: seen) s hseen' hrest' (frameExact_hit hfe hmem)
      exact ⟨s', by simp [lruRunAux, hstep, h1], h2⟩
    | false =>
      have hmem : d ∉ s.set := (arrayContains_eq_false _ _).mp hc
      obtain ⟨hsz, hfe'⟩ := frameExact_miss hw hseen hd hfe hmem
      have hstep : lruStep wss (d :: seen) d s =
          some ⟨s.set.set s.size d, s.size + 1, s.faults⟩ := by
        simp [lruStep, hc, hsz]
      obtain ⟨s', h1, h2⟩ :=
        ih (d :: seen) ⟨s.set.set s.size d, s.size + 1, s.faults⟩ hseen' hrest' hfe'
      exact ⟨s', by simp [lruRunAux, hstep, h1], h2⟩

theorem fifo_zero_aux (wss : Nat) (t : List Int) (hw : distinctCount t ≤ wss) :
    ∀ (rest seen : List Int) (s : FIFOState),
      (∀ v ∈ seen, v ∈ t) → (∀ v ∈ rest, v ∈ t) →
      FrameExact wss seen s.set s.size →
      (fifoRunAux wss rest s).faults = s.faults := by
  intro rest
  induction rest with
  | nil => intro seen s _ _ _; rfl
  | cons d rest' ih =>
    intro seen s hseen hrest hfe
    have hd : d ∈ t := hrest d (List.mem_cons_self _ _)
    have hrest' : ∀ v ∈ rest', v ∈ t := fun v hv => hrest v (List.mem_cons_of_mem _ hv)
    have hseen' : ∀ v ∈ d :: seen, v ∈ t := by
      intro v hv
      rcases List.mem_cons.mp hv with h1 | h1
      · exact h1 ▸ hd
      · exact hseen v h1
    cases hc : arrayContains s.set d with
    | true =>
      have hmem : d ∈ s.set := (arrayContains_iff _ _).mp hc
      have hstep : fifoStep wss d s = s := by simp [fifoStep, hc]
      have := ih (d :: seen) s hseen' hrest' (frameExact_hit hfe hmem)
      simpa [fifoRunAux, hstep] using this
    | false =>
      have hmem : d ∉ s.set := (arrayContains_eq_false _ _).mp hc
      obtain ⟨hsz, hfe'⟩ := frameExact_miss hw hseen hd hfe hmem
      have hstep : fifoStep wss d s = ⟨s.set.set s.size d, s.size + 1, s.fifoIndex, s.faults⟩ := by
        simp [fifoStep, hc, hsz]
      have := ih (d :: seen) ⟨s.set.set s.size d, s.size + 1, s.fifoIndex, s.faults⟩
        hseen' hrest' hfe'
      simpa [fifoRunAux, hstep] using this

theorem clock_zero_aux (wss : Nat) (t : List Int) (hw : distinctCount t ≤ wss) :
    ∀ (rest seen : List Int) (s : ClockState),
      (∀ v ∈ seen, v ∈ t) → (∀ v ∈ rest, v ∈ t) →
      FrameExact wss seen s.set s.size →
      ∃ s', clockRunAux wss rest s = some s' ∧ s'.faults = s.faults := by
  intro rest
  induction rest with
  | nil => intro seen s _ _ _; exact ⟨s, rfl, rfl⟩
  | cons d rest' ih =>
    intro seen s hseen hrest hfe
    have hd : d ∈ t := hrest d (List.mem_cons_self _ _)
    have hrest' : ∀ v ∈ rest', v ∈ t := fun v hv => hrest v (List.mem_cons_of_mem _ hv)
    have hseen' : ∀ v ∈ d :: seen, v ∈ t := by
      intro v hv
      rcases List.mem_cons.mp hv with h1 | h1
      · exact h1 ▸ hd
      · exact hseen v h1
    cases hc : arrayContains s.set d with
    | true =>
      have hmem : d ∈ s.set := (arrayContains_iff _ _).mp hc
      obtain ⟨k, hk⟩ := getIndex_isSome_of_mem s.set d hmem
      have hstep : clockStep wss d s =
          some ⟨s.set, s.secondChance.set k 1, s.size, s.fifoIndex, s.faults⟩ := by
        simp [clockStep, hc, hk]
      obtain ⟨s', h1, h2⟩ :=
        ih (d :: seen) ⟨s.set, s.secondChance.set k 1, s.size, s.fifoIndex, s.faults⟩
          hseen' hrest' (frameExact_hit hfe hmem)
      exact ⟨s', by simp [clockRunAux, hstep, h1], h2⟩
    | false =>
      have hmem : d ∉ s.set := (arrayContains_eq_false _ _).mp hc
      obtain ⟨hsz, hfe'⟩ := frameExact_miss hw hseen hd hfe hmem
      have hstep : clockStep wss d s =
          some ⟨s.set.set s.size d, s.secondChance, s.size + 1, s.fifoIndex, s.faults⟩ := by
        simp [clockStep, hc, hsz]
      obtain ⟨s', h1, h2⟩ :=
        ih (d :: seen) ⟨s.set.set s.size d, s.secondChance, s.size + 1, s.fifoIndex, s.faults⟩
          hseen' hrest' hfe'
      exact ⟨s', by simp [clockRunAux, hstep, h1], h2⟩

/-! ### The backward recency scan

Provided the frame holds `wss` distinct non-sentinel pages, all of which
occur in the scanned (reversed) trace prefix, the scan reaches `c = wss` and
breaks; the victim is the resident page whose first occurrence in the
reversed prefix (i.e. most recent occurrence in the trace) comes after the
first occurrences of all other resident pages. -/

theorem lruScan_finds (wss : Nat) (S : List Int) (hlen : S.length = wss)
    (hnd : S.Nodup) (him : intMin ∉ S) :
    ∀ (rem rec : List Int),
      rec.Nodup → (∀ v ∈ rec, v ∈ S) → rec.length < wss →
      (∀ v ∈ S, v ∉ rec → v ∈ rem) →
      ∃ v pr po,
        lruScan wss S (rec ++ List.replicate (wss - rec.length) intMin) rec.length rem
          = some v ∧
        rem = pr ++ v :: po ∧ v ∉ pr ∧ v ∈ S ∧ v ∉ rec ∧
        (∀ u ∈ S, u ∈ rec ∨ u ∈ pr ∨ u = v) := by
  intro rem
  induction rem with
  | nil =>
    intro rec hrnd hrS hrlen hcov
    exfalso
    have hSsub : ∀ v ∈ S, v ∈ rec := by
      intro v hv
      by_contra hvr
      exact absurd (hcov v hv hvr) (List.not_mem_nil v)
    have hle := nodup_length_le S rec hnd hSsub
    rw [List.dedup_eq_self.mpr hrnd] at hle
    omega
  | cons e rem' ih =>
    intro rec hrnd hrS hrlen hcov
    cases hceS : arrayContains S e with
    | false =>
      have heS : e ∉ S := (arrayContains_eq_false _ _).mp hceS
      have hcov' : ∀ v ∈ S, v ∉ rec → v ∈ rem' := by
        intro v hv hvr
        rcases List.mem_cons.mp (hcov v hv hvr) with h1 | h1
        · exact absurd (h1 ▸ hv) heS
        · exact h1
      obtain ⟨v, pr, po, hscan, hsplit, hvpr, hvS, hvrec, hucov⟩ :=
        ih rec hrnd hrS hrlen hcov'
      refine ⟨v, e :: pr, po, ?_, by simp [hsplit], ?_, hvS, hvrec, ?_⟩
      · simpa [lruScan, hceS] using hscan
      · intro hmem
        rcases List.mem_cons.mp hmem with h1 | h1
        · exact heS (h1 ▸ hvS)
        · exact hvpr h1
      · intro u hu
        rcases hucov u hu with h1 | h1 | h1
        · exact Or.inl h1
        · exact Or.inr (Or.inl (List.mem_cons_of_mem _ h1))
        · exact Or.inr (Or.inr h1)
    | true =>
      have heS : e ∈ S := (arrayContains_iff _ _).mp hceS
      have heim : e ≠ intMin := fun h => him (h ▸ heS)
      by_cases her : e ∈ rec
      · have hru : arrayContains (rec ++ List.replicate (wss - rec.length) intMin) e = true := by
          rw [arrayContains_iff]
          exact List.mem_append_left _ her
        have hcne : ¬ rec.length = wss := by omega
        have hcov' : ∀ v ∈ S, v ∉ rec → v ∈ rem' := by
          intro v hv hvr
          rcases List.mem_cons.mp (hcov v hv hvr) with h1 | h1
          · exact absurd (h1 ▸ her) hvr
          · exact h1
        obtain ⟨v, pr, po, hscan, hsplit, hvpr, hvS, hvrec, hucov⟩ :=
          ih rec hrnd hrS hrlen hcov'
        refine ⟨v, e :: pr, po, ?_, by simp [hsplit], ?_, hvS, hvrec, ?_⟩
        · simpa [lruScan, hceS, hru, hcne] using hscan
        · intro hmem
          rcases List.mem_cons.mp hmem with h1 | h1
          · exact hvrec (h1 ▸ her)
          · exact hvpr h1
        · intro u hu
          rcases hucov u hu with h1 | h1 | h1
          · exact Or.inl h1
          · exact Or.inr (Or.inl (List.mem_cons_of_mem _ h1))
          · exact Or.inr (Or.inr h1)
      · have hru : arrayContains (rec ++ List.replicate (wss - rec.length) intMin) e = false := by
          rw [arrayContains_eq_false, mem_append_replicate]
          rintro (h1 | h1)
          · exact her h1
          · exact heim h1.2
        have hrep : wss - rec.length = (wss - rec.length - 1) + 1 := by omega
        by_cases hbreak : rec.length + 1 = wss
        · refine ⟨e, [], rem', ?_, by simp, by simp, heS, her, ?_⟩
          · simp [lruScan, hceS, hru, hbreak]
          · intro u hu
            by_contra hcon
            push_neg at hcon
            obtain ⟨h1, _, h3⟩ := hcon
            have hnd2 : (u :: e :: rec).Nodup := by
              refine List.nodup_cons.mpr ⟨?_, List.nodup_cons.mpr ⟨her, hrnd⟩⟩
              intro hm
              rcases List.mem_cons.mp hm with h4 | h4
              · exact h3 h4
              · exact h1 h4
            have hsub2 : ∀ w ∈ u :: e :: rec, w ∈ S := by
              intro w hw
              rcases List.mem_cons.mp hw with h4 | h4
              · exact h4 ▸ hu
              · rcases List.mem_cons.mp h4 with h5 | h5
                · exact h5 ▸ heS
                · exact hrS w h5
            have hle := nodup_length_le (u :: e :: rec) S hnd2 hsub2
            rw [List.dedup_eq_self.mpr hnd] at hle
            simp at hle
            omega
        · have hlt1 : rec.length + 1 < wss := by omega
          have hrnd' : (rec ++ [e]).Nodup := by
            simp [List.nodup_append, hrnd, her]
          have hrS' : ∀ v ∈ rec ++ [e], v ∈ S := by
            intro v hv
            rcases List.mem_append.mp hv with h1 | h1
            · exact hrS v h1
            · simp at h1
              exact h1 ▸ heS
          have hcov' : ∀ v ∈ S, v ∉ rec ++ [e] → v ∈ rem' := by
            intro v hv hvr
            have hvrec : v ∉ rec := fun h => hvr (List.mem_append_left _ h)
            have hvne : v ≠ e := fun h => hvr (List.mem_append_right _ (by simp [h]))
            rcases List.mem_cons.mp (hcov v hv hvrec) with h1 | h1
            · exact absurd h1 hvne
            · exact h1
          obtain ⟨v, pr, po, hscan, hsplit, hvpr, hvS, hvrec, hucov⟩ :=
            ih (rec ++ [e]) hrnd' hrS' (by simpa using hlt1) hcov'
          have hset : (rec ++ List.replicate (wss - rec.length) intMin).set rec.length e
              = (rec ++ [e]) ++ List.replicate (wss - (rec ++ [e]).length) intMin := by
            rw [hrep, set_append_replicate]
            simp
            omega
          refine ⟨v, e :: pr, po, ?_, by simp [hsplit], ?_, hvS,
            fun h => hvrec (List.mem_append_left _ h), ?_⟩
          · have hgoal : lruScan wss S
                ((rec ++ List.replicate (wss - rec.length) intMin).set rec.length e)
                (rec.length + 1) rem' = some v := by
              rw [hset]
              simpa using hscan
            simpa [lruScan, hceS, hru, hbreak] using hgoal
          · intro hmem
            rcases List.mem_cons.mp hmem with h1 | h1
            · exact hvrec (List.mem_append_right _ (by simp [h1]))
            · exact hvpr h1
          · intro u hu
            rcases hucov u hu with h1 | h1 | h1
            · rcases List.mem_append.mp h1 with h2 | h2
              · exact Or.inl h2
              · simp at h2
                exact Or.inr (Or.inl (by simp [h2]))
            · exact Or.inr (Or.inl (List.mem_cons_of_mem _ h1))
            · exact Or.inr (Or.inr h1)

/-! ### LRU full-frame misses -/

theorem lruStep_full_miss {wss : Nat} (seen : List Int) (d : Int) (s : LRUState)
    (hw : 1 ≤ wss) (hfull : s.size = wss)
    (hok : FrameOk wss seen s.set s.size) (him : intMin ∉ seen)
    (hmiss : arrayContains s.set d = false) :
    ∃ v pr po c,
      lruScan wss s.set (List.replicate wss intMin) 0 (d :: seen) = some v ∧
      d :: seen = pr ++ v :: po ∧ v ∉ pr ∧ v ∈ s.set ∧
      (∀ u ∈ s.set, u ∈ pr ∨ u = v) ∧
      getIndex s.set v = some c ∧
      lruStep wss (d :: seen) d s = some ⟨s.set.set c d, s.size, s.faults + 1⟩ := by
  have hok' : FrameOk wss seen s.set wss := hfull ▸ hok
  obtain ⟨hnd, hsub⟩ := hok'.full_eq
  have hlen : s.set.length = wss := hok'.length_eq
  have himS : intMin ∉ s.set := fun h => him (hsub _ h)
  have hcov : ∀ v ∈ s.set, v ∉ ([] : List Int) → v ∈ d :: seen := by
    intro v hv _
    exact List.mem_cons_of_mem _ (hsub v hv)
  obtain ⟨v, pr, po, hscan, hsplit, hvpr, hvS, _, hucov⟩ :=
    lruScan_finds wss s.set hlen hnd himS (d :: seen) [] List.nodup_nil
      (by simp) (by simpa using hw) hcov
  obtain ⟨c, hc⟩ := getIndex_isSome_of_mem s.set v hvS
  have hscan' : lruScan wss s.set (List.replicate wss intMin) 0 (d :: seen) = some v := by
    simpa using hscan
  refine ⟨v, pr, po, c, hscan', hsplit, hvpr, hvS, ?_, hc, ?_⟩
  · intro u hu
    rcases hucov u hu with h1 | h1 | h1
    · exact absurd h1 (List.not_mem_nil u)
    · exact Or.inl h1
    · exact Or.inr h1
  · simp [lruStep, hmiss, hfull, hscan', hc]

theorem lruRunAux_isSome (wss : Nat) (hw : 1 ≤ wss) :
    ∀ (rest seen : List Int) (s : LRUState),
      FrameOk wss seen s.set s.size →
      intMin ∉ seen → intMin ∉ rest →
      ∃ s', lruRunAux wss seen rest s = some s' := by
  intro rest
  induction rest with
  | nil => intro seen s _ _ _; exact ⟨s, rfl⟩
  | cons d rest' ih =>
    intro seen s h himseen himrest
    have himseen' : intMin ∉ d :: seen := by
      intro hm
      rcases List.mem_cons.mp hm with h1 | h1
      · exact himrest (by simp [← h1])
      · exact himseen h1
    have himrest' : intMin ∉ rest' := fun hm => himrest (List.mem_cons_of_mem _ hm)
    have hsome : ∃ s2, lruStep wss (d :: seen) d s = some s2 := by
      cases hc : arrayContains s.set d with
      | true => exact ⟨s, by simp [lruStep, hc]⟩
      | false =>
        by_cases hsz : s.size = wss
        · obtain ⟨v, pr, po, c, _, _, _, _, _, _, hstep⟩ :=
            lruStep_full_miss seen d s hw hsz h himseen hc
          exact ⟨_, hstep⟩
        · exact ⟨⟨s.set.set s.size d, s.size + 1, s.faults⟩, by simp [lruStep, hc, hsz]⟩
    obtain ⟨s2, hstep⟩ := hsome
    obtain ⟨s', hrun⟩ := ih (d :: seen) s2 (lruStep_frameOk h hstep) himseen' himrest'
    exact ⟨s', by simp [lruRunAux, hstep, hrun]⟩

/-! ### Clock sweep termination -/

/-- Number of set (nonzero) use bits. -/
def countNZ (l : List Int) : Nat := l.countP (fun x => x != 0)

theorem countNZ_le (l : List Int) : countNZ l ≤ l.length :=
  List.countP_le_length _

theorem countNZ_set_zero :
    ∀ (l : List Int) (i : Nat), l.getD i 0 ≠ 0 → countNZ (l.set i 0) + 1 = countNZ l := by
  intro l
  induction l with
  | nil => intro i h; simp [List.getD] at h
  | cons a t ih =>
    intro i h
    cases i with
    | zero =>
      have ha : (a != 0) = true := by simpa using h
      simp [countNZ, List.countP_cons, ha]
    | succ i =>
      have h' : t.getD i 0 ≠ 0 := by simpa [List.getD] using h
      have := ih i h'
      simp only [List.set, countNZ, List.countP_cons] at *
      omega

theorem clockSweep_succeeds (wss : Nat) :
    ∀ (fuel : Nat) (sc : List Int) (idx : Nat),
      countNZ sc < fuel →
      ∃ sc2 idx2, clockSweep wss fuel sc idx = some (sc2, idx2) ∧
        sc2.getD idx2 0 = 0 ∧ sc2.length = sc.length ∧
        (1 ≤ wss → idx < wss → idx2 < wss) := by
  intro fuel
  induction fuel with
  | zero => intro sc idx h; omega
  | succ fuel ih =>
    intro sc idx h
    have heq : clockSweep wss (fuel + 1) sc idx
        = if sc.getD idx 0 ≠ 0 then
            clockSweep wss fuel (sc.set idx 0) (if idx + 1 = wss then 0 else idx + 1)
          else some (sc, idx) := rfl
    by_cases hz : sc.getD idx 0 = 0
    · refine ⟨sc, idx, ?_, hz, rfl, fun _ h2 => h2⟩
      rw [heq, if_neg (not_not_intro hz)]
    · have hcount := countNZ_set_zero sc idx hz
      have hlt : countNZ (sc.set idx 0) < fuel := by omega
      obtain ⟨sc2, idx2, h1, h2, h3, h4⟩ :=
        ih (sc.set idx 0) (if idx + 1 = wss then 0 else idx + 1) hlt
      have hlen : sc2.length = sc.length := by
        rw [h3, List.length_set]
      refine ⟨sc2, idx2, ?_, h2, hlen, ?_⟩
      · rw [heq, if_pos hz, h1]
      · intro hw hidx
        apply h4 hw
        by_cases hwrap : idx + 1 = wss
        · simp [hwrap]
          omega
        · simp [hwrap]
          omega

/-! ### The normal sampler's draws -/

theorem normalDraws_cons (r : Nat) (rest : List Nat) :
    normalDraws (r :: rest)
      = if r = 0 then normalDraws rest
        else match rest with
          | [] => none
          | r2 :: _ => some (r, r2) := rfl

theorem normalDraws_spec :
    ∀ (stream : List Nat) (n1 n2 : Nat),
      normalDraws stream = some (n1, n2) →
      n1 ≠ 0 ∧ n1 ∈ stream ∧ n2 ∈ stream := by
  intro stream
  induction stream with
  | nil => intro n1 n2 h; simp [normalDraws] at h
  | cons r rest ih =>
    intro n1 n2 h
    have heq := normalDraws_cons r rest
    by_cases hr : r = 0
    · rw [heq, if_pos hr] at h
      obtain ⟨h1, h2, h3⟩ := ih n1 n2 h
      exact ⟨h1, List.mem_cons_of_mem _ h2, List.mem_cons_of_mem _ h3⟩
    · rw [heq, if_neg hr] at h
      cases rest with
      | nil => simp at h
      | cons r2 rest' =>
        simp at h
        obtain ⟨h1, h2⟩ := h
        subst h1
        subst h2
        exact ⟨hr, List.mem_cons_self _ _,
          List.mem_cons_of_mem _ (List.mem_cons_self _ _)⟩

/-! ## Claim theorems -/

/-- Claim C1, counterexample to the claim as stated: for the trace `[1, 2]`
and `wss = 2` the distinct page count is 2 and is at most `wss`, yet all
three policies return 0 faults, not 2: the fill-phase branch of each policy
(miss with a free slot) occupies a slot without incrementing the fault
counter, so compulsory misses are never counted. -/
theorem claim1_counterexample :
    distinctCount [1, 2] = 2 ∧ distinctCount [1, 2] ≤ 2 ∧
    LRUrun 2 [1, 2] = some 0 ∧ FIFOrun 2 [1, 2] = 0 ∧ ClockRun 2 [1, 2] = some 0 ∧
    (0 : Nat) ≠ 2 := by decide

/-- Claim C1 (amended): for every `wss ≥ 1` and every trace whose number of
distinct page identifiers is at most `wss`, each of the three policies
returns a fault count of exactly 0: each distinct page occupies a free slot
on its first reference without a fault being counted, and no faults occur
once all pages are resident. -/
theorem claim1_zero_faults (wss : Nat) (trace : List Int)
    (_hw : 1 ≤ wss) (hd : distinctCount trace ≤ wss) :
    LRUrun wss trace = some 0 ∧ FIFOrun wss trace = 0 ∧ ClockRun wss trace = some 0 := by
  refine ⟨?_, ?_, ?_⟩
  · obtain ⟨s', h1, h2⟩ := lru_zero_aux wss trace hd trace []
      ⟨List.replicate wss intMin, 0, 0⟩
      (by intro v hv; simp at hv) (fun v hv => hv) (frameExact_init wss)
    unfold LRUrun lruFinal
    rw [h1]
    simp [h2]
  · have h1 := fifo_zero_aux wss trace hd trace []
      ⟨List.replicate wss intMin, 0, 0, 0⟩
      (by intro v hv; simp at hv) (fun v hv => hv) (frameExact_init wss)
    exact h1
  · obtain ⟨s', h1, h2⟩ := clock_zero_aux wss trace hd trace []
      ⟨List.replicate wss intMin, List.replicate wss 0, 0, 0, 0⟩
      (by intro v hv; simp at hv) (fun v hv => hv) (frameExact_init wss)
    unfold ClockRun clockFinal
    rw [h1]
    simp [h2]

theorem claim1_zero_faults_witness :
    LRUrun 2 [4, 7] = some 0 ∧ FIFOrun 2 [4, 7] = 0 ∧ ClockRun 2 [4, 7] = some 0 :=
  claim1_zero_faults 2 [4, 7] (by decide) (by decide)

/-- Claim C3: for the trace `[1,2,3,4,1,2,5,1,2,3,4,5]` with `wss = 3`, the
`FIFO` policy returns exactly 6 faults. -/
theorem claim3_fifo_belady : FIFOrun 3 [1, 2, 3, 4, 1, 2, 5, 1, 2, 3, 4, 5] = 6 := by
  decide

/-- Claim C4: for every `wss ≥ 1` and every use-bit array of length `wss`
(as holds at every full-frame miss of `Clock`), the eviction sweep with fuel
`wss + 1` (at most `wss` bit-clearing steps) terminates, returning a slot
whose use bit is 0; and a slot the hand starts on, if its bit is unset, is
returned immediately with nothing cleared. -/
theorem claim4_clock_sweep (wss : Nat) (sc : List Int) (idx : Nat)
    (hw : 1 ≤ wss) (hlen : sc.length = wss) (hidx : idx < wss) :
    (∃ sc2 idx2, clockSweep wss (wss + 1) sc idx = some (sc2, idx2) ∧
      sc2.getD idx2 0 = 0 ∧ idx2 < wss) ∧
    (sc.getD idx 0 = 0 → clockSweep wss (wss + 1) sc idx = some (sc, idx)) := by
  constructor
  · have hfuel : countNZ sc < wss + 1 := by
      have := countNZ_le sc
      omega
    obtain ⟨sc2, idx2, h1, h2, _, h4⟩ := clockSweep_succeeds wss (wss + 1) sc idx hfuel
    exact ⟨sc2, idx2, h1, h2, h4 hw hidx⟩
  · intro hz
    have heq : clockSweep wss (wss + 1) sc idx
        = if sc.getD idx 0 ≠ 0 then
            clockSweep wss wss (sc.set idx 0) (if idx + 1 = wss then 0 else idx + 1)
          else some (sc, idx) := rfl
    rw [heq, if_neg (not_not_intro hz)]

theorem claim4_clock_sweep_witness :
    (∃ sc2 idx2, clockSweep 2 3 [1, 1] 0 = some (sc2, idx2) ∧
      sc2.getD idx2 0 = 0 ∧ idx2 < 2) ∧
    (([1, 1] : List Int).getD 0 0 = 0 → clockSweep 2 3 [1, 1] 0 = some ([1, 1], 0)) :=
  claim4_clock_sweep 2 [1, 1] 0 (by decide) (by decide) (by decide)

/-- Claim C5, counterexample to the claim as stated: for `wss = 1` and the
trace `[1, INT_MIN, 2]` the run aborts (`none`): after `INT_MIN` is resident,
the backward scan at the full-frame miss on page 2 never records the resident
sentinel (the recency array is pre-filled with `INT_MIN`, so the sentinel
always counts as already recorded), `c` never reaches `wss`, the loop runs
past position 0, and the C code reads the uninitialised victim variable. -/
theorem claim5_counterexample : LRUrun 1 [1, intMin, 2] = none := by decide

/-- Claim C5 (amended): for every `wss ≥ 1` and every trace that does not
contain the sentinel `INT_MIN`, every backward scan taken at a full-frame
miss of `LRU` reaches `c = wss` and exits via its break, so the victim is
always assigned and the whole run yields a fault count. -/
theorem claim5_lru_scan_total (wss : Nat) (trace : List Int)
    (hw : 1 ≤ wss) (him : intMin ∉ trace) :
    ∃ n, LRUrun wss trace = some n := by
  obtain ⟨s', h1⟩ := lruRunAux_isSome wss hw trace []
    ⟨List.replicate wss intMin, 0, 0⟩ (frameOk_init wss) (by simp) him
  refine ⟨s'.faults, ?_⟩
  unfold LRUrun lruFinal
  rw [h1]
  rfl

theorem claim5_lru_scan_total_witness : ∃ n, LRUrun 1 [1, 2, 3] = some n :=
  claim5_lru_scan_total 1 [1, 2, 3] (by decide) (by decide)

/-- Claim C8: the per-policy averaging step of `main` divides the accumulated
fault sum by the trial count with C integer division, and for the
nonnegative sums and positive trial count the driver uses this coincides
exactly with floor division. -/
theorem claim8_average_floor (total trials : Nat) (_h : 0 < trials) :
    driverAverage total trials = ⌊(total : ℚ) / (trials : ℚ)⌋ := by
  rw [Rat.floor_natCast_div_natCast]
  rfl

theorem claim8_average_floor_witness :
    driverAverage 7 2 = ⌊(7 : ℚ) / (2 : ℚ)⌋ :=
  claim8_average_floor 7 2 (by decide)

/-- Claim C9: the three policy engines are deterministic: they are pure
functions of the working-set size and the trace (consuming no randomness),
so two runs on equal inputs return equal fault counts. -/
theorem claim9_deterministic (w1 w2 : Nat) (t1 t2 : List Int)
    (hw : w1 = w2) (ht : t1 = t2) :
    LRUrun w1 t1 = LRUrun w2 t2 ∧ FIFOrun w1 t1 = FIFOrun w2 t2 ∧
    ClockRun w1 t1 = ClockRun w2 t2 := by
  subst hw
  subst ht
  exact ⟨rfl, rfl, rfl⟩

theorem claim9_deterministic_witness :
    LRUrun 3 [1, 2] = LRUrun 3 [1, 2] ∧ FIFOrun 3 [1, 2] = FIFOrun 3 [1, 2] ∧
    ClockRun 3 [1, 2] = ClockRun 3 [1, 2] :=
  claim9_deterministic 3 3 [1, 2] [1, 2] rfl rfl

/-- Claim C2, counterexample to the claim as stated: with `wss = 1`, after
processing `[1, INT_MIN]` the frame is full (`size = 1 = wss`) with the
sentinel resident, and the reference 2 misses, so position 2 is a full-frame
miss; yet no slot is overwritten and no fault count is produced — the step
aborts on the undefined-behaviour path (the backward scan never appends the
resident sentinel, so the victim variable is read uninitialised) instead of
evicting the resident page whose most recent reference is furthest in the
past. -/
theorem claim2_counterexample :
    lruFinal 1 [1, intMin] = some ⟨[intMin], 1, 1⟩ ∧
    arrayContains [intMin] 2 = false ∧
    lruStep 1 [2, intMin, 1] 2 ⟨[intMin], 1, 1⟩ = none := by decide

/-- Claim C2 (amended): at every full-frame miss of `LRU` on a reference `d`
with reversed processed prefix `seen`, provided no sentinel was referenced,
the backward scan returns a victim `v` that is resident, and every other
resident page occurs in the scanned prefix strictly before the first
occurrence of `v` — i.e. `v` is the resident page whose most recent
reference lies furthest in the past, found as the `wss`-th distinct resident
page appended by the scan; its slot is overwritten with `d` and the fault
count is incremented.  In particular `LRU` yields 7 faults on the trace
`[1,2,3,4,1,2,5,1,2,3,4,5]` with `wss = 3`. -/
theorem claim2_lru_victim :
    (∀ (wss : Nat) (seen : List Int) (d : Int) (s : LRUState),
      1 ≤ wss → s.size = wss → FrameOk wss seen s.set s.size → intMin ∉ seen →
      arrayContains s.set d = false →
      ∃ v pr po c,
        lruScan wss s.set (List.replicate wss intMin) 0 (d :: seen) = some v ∧
        d :: seen = pr ++ v :: po ∧ v ∉ pr ∧ v ∈ s.set ∧
        (∀ u ∈ s.set, u ∈ pr ∨ u = v) ∧
        getIndex s.set v = some c ∧
        lruStep wss (d :: seen) d s = some ⟨s.set.set c d, s.size, s.faults + 1⟩) ∧
    LRUrun 3 [1, 2, 3, 4, 1, 2, 5, 1, 2, 3, 4, 5] = some 7 := by
  constructor
  · intro wss seen d s hw hfull hok him hmiss
    exact lruStep_full_miss seen d s hw hfull hok him hmiss
  · decide

theorem claim2_lru_victim_witness :
    ∃ v pr po c,
      lruScan 1 [5] (List.replicate 1 intMin) 0 [7, 5] = some v ∧
      ([7, 5] : List Int) = pr ++ v :: po ∧ v ∉ pr ∧ v ∈ ([5] : List Int) ∧
      (∀ u ∈ ([5] : List Int), u ∈ pr ∨ u = v) ∧
      getIndex [5] v = some c ∧
      lruStep 1 [7, 5] 7 ⟨[5], 1, 0⟩ = some ⟨([5] : List Int).set c 7, 1, 0 + 1⟩ :=
  claim2_lru_victim.1 1 [5] 7 ⟨[5], 1, 0⟩ (by decide) rfl
    ⟨[5], by simp, rfl, by decide, by decide, by simp⟩ (by decide) (by decide)

/-- Claim C6: at every reference step, each policy's frame holds at most
`wss` occupied (non-sentinel) slots with no page identifier occupying two
slots.  Quantifying over all traces covers every intermediate step, since
the state after `k` references of a trace equals the final state on its
`k`-element front segment. -/
theorem claim6_frame_invariant (wss : Nat) (trace : List Int) (_hw : 1 ≤ wss) :
    (∀ s, lruFinal wss trace = some s →
      (occupiedSlots s.set).length ≤ wss ∧ (occupiedSlots s.set).Nodup) ∧
    ((occupiedSlots (fifoFinal wss trace).set).length ≤ wss ∧
      (occupiedSlots (fifoFinal wss trace).set).Nodup) ∧
    (∀ s, clockFinal wss trace = some s →
      (occupiedSlots s.set).length ≤ wss ∧ (occupiedSlots s.set).Nodup) := by
  refine ⟨?_, ?_, ?_⟩
  · intro s hs
    obtain ⟨seen2, hok⟩ :=
      lruRunAux_frameOk wss trace [] ⟨List.replicate wss intMin, 0, 0⟩ s
        (frameOk_init wss) hs
    exact frameOk_occupied hok
  · obtain ⟨seen2, hok⟩ :=
      fifoRunAux_frameOk wss trace [] ⟨List.replicate wss intMin, 0, 0, 0⟩
        (frameOk_init wss)
    exact frameOk_occupied hok
  · intro s hs
    obtain ⟨seen2, hok⟩ :=
      clockRunAux_frameOk wss trace []
        ⟨List.replicate wss intMin, List.replicate wss 0, 0, 0, 0⟩ s
        (frameOk_init wss) hs
    exact frameOk_occupied hok

theorem claim6_frame_invariant_witness :
    (occupiedSlots ([3, 2] : List Int)).length ≤ 2 ∧
    (occupiedSlots ([3, 2] : List Int)).Nodup :=
  (claim6_frame_invariant 2 [1, 2, 3] (by decide)).1 ⟨[3, 2], 2, 1⟩ (by decide)

/-- Claim C7, counterexample to the claim as stated: the second uniform
variate is `rand()/RAND_MAX` with `rand()` ranging over `[0, RAND_MAX]`
inclusive, so on a stream whose second draw is `RAND_MAX` the variate `u2`
equals 1, which does not lie in `[0, 1)`. -/
theorem claim7_counterexample :
    normalDraws [1, RAND_MAX] = some (1, RAND_MAX) ∧
    normalU1U2 [1, RAND_MAX] = some ((1 : ℚ) / (RAND_MAX : ℚ), 1) ∧
    ¬ ((1 : ℚ) < 1) := by
  refine ⟨rfl, ?_, by norm_num⟩
  unfold normalU1U2
  rw [show normalDraws [1, RAND_MAX] = some (1, RAND_MAX) from rfl]
  simp only [Option.map_some']
  norm_num [RAND_MAX]

/-- Claim C7 (amended): every successful call of the sampler draws a first
variate `u1 = n1/RAND_MAX` in `(0, 1]` (the raw draw is re-drawn until
strictly nonzero, so the logarithm argument is never zero) and a second
variate `u2 = n2/RAND_MAX` in the closed interval `[0, 1]`, and returns the
Box-Muller expression `sqrt(-2 ln u1) * cos(2 pi u2) * sd + mean` truncated
toward zero, with the floating-point primitives `sqrt`, `log`, `cos`, `pi`
taken as abstract parameters. -/
theorem claim7_normal_sampler (ops : FloatOps) (mean sd : Int)
    (stream : List Nat) (n1 n2 : Nat)
    (hbound : ∀ r ∈ stream, r ≤ RAND_MAX)
    (hdraw : normalDraws stream = some (n1, n2)) :
    0 < (n1 : ℚ) / (RAND_MAX : ℚ) ∧ (n1 : ℚ) / (RAND_MAX : ℚ) ≤ 1 ∧
    0 ≤ (n2 : ℚ) / (RAND_MAX : ℚ) ∧ (n2 : ℚ) / (RAND_MAX : ℚ) ≤ 1 ∧
    normal ops mean sd stream =
      some (truncTowardZero
        ((ops.fsqrt (-2 * ops.flog ((n1 : ℚ) / (RAND_MAX : ℚ))) *
          ops.fcos (2 * ops.fpi * ((n2 : ℚ) / (RAND_MAX : ℚ)))) * (sd : ℚ) + (mean : ℚ))) := by
  obtain ⟨h1, h2, h3⟩ := normalDraws_spec stream n1 n2 hdraw
  have hb1 : n1 ≤ RAND_MAX := hbound n1 h2
  have hb2 : n2 ≤ RAND_MAX := hbound n2 h3
  have hRM : (0 : ℚ) < (RAND_MAX : ℚ) := by norm_num [RAND_MAX]
  refine ⟨?_, ?_, ?_, ?_, ?_⟩
  · apply div_pos _ hRM
    exact_mod_cast Nat.pos_of_ne_zero h1
  · rw [div_le_one hRM]
    exact_mod_cast hb1
  · exact div_nonneg (Nat.cast_nonneg n2) hRM.le
  · rw [div_le_one hRM]
    exact_mod_cast hb2
  · unfold normal normalU1U2
    rw [hdraw]
    rfl

theorem claim7_normal_sampler_witness :
    0 < (1 : ℚ) / (RAND_MAX : ℚ) ∧ (1 : ℚ) / (RAND_MAX : ℚ) ≤ 1 ∧
    0 ≤ (3 : ℚ) / (RAND_MAX : ℚ) ∧ (3 : ℚ) / (RAND_MAX : ℚ) ≤ 1 ∧
    normal ⟨id, id, id, 3⟩ 10 2 [0, 1, 3] =
      some (truncTowardZero
        ((id (-2 * id ((1 : ℚ) / (RAND_MAX : ℚ))) *
          id (2 * 3 * ((3 : ℚ) / (RAND_MAX : ℚ)))) * ((2 : Int) : ℚ) + ((10 : Int) : ℚ))) :=
  claim7_normal_sampler ⟨id, id, id, 3⟩ 10 2 [0, 1, 3] 1 3 (by decide) (by decide)

/-- Claim C10: a reference equal to the sentinel `INT_MIN`, made while the
frame still has an unoccupied slot, is treated as a hit by all three
policies (the containment scan matches a sentinel-filled slot): the state is
returned unchanged — no fault counted, no slot occupied — except that
`Clock` sets the use bit of the first unoccupied slot (slot `size`, the
first slot holding the sentinel) to 1. -/
theorem claim10_sentinel_hit (wss : Nat) (scanL occ : List Int) (m : Nat)
    (sL : LRUState) (sF : FIFOState) (sC : ClockState)
    (hm : 0 < m) (him : intMin ∉ occ)
    (hL : sL.set = occ ++ List.replicate m intMin)
    (hF : sF.set = occ ++ List.replicate m intMin)
    (hC : sC.set = occ ++ List.replicate m intMin)
    (hCsize : sC.size = occ.length) :
    lruStep wss scanL intMin sL = some sL ∧
    fifoStep wss intMin sF = sF ∧
    clockStep wss intMin sC =
      some ⟨sC.set, sC.secondChance.set sC.size 1, sC.size, sC.fifoIndex, sC.faults⟩ := by
  have hmem : intMin ∈ occ ++ List.replicate m intMin := by
    rw [mem_append_replicate]
    exact Or.inr ⟨by omega, rfl⟩
  have hrep : List.replicate m intMin = intMin :: List.replicate (m - 1) intMin := by
    cases m with
    | zero => omega
    | succ k => simp [List.replicate_succ]
  have hgi : getIndex (occ ++ List.replicate m intMin) intMin = some occ.length := by
    rw [hrep]
    exact getIndex_first_sentinel occ _ intMin him
  refine ⟨?_, ?_, ?_⟩
  · have hcont : arrayContains sL.set intMin = true := by
      rw [arrayContains_iff, hL]
      exact hmem
    simp [lruStep, hcont]
  · have hcont : arrayContains sF.set intMin = true := by
      rw [arrayContains_iff, hF]
      exact hmem
    simp [fifoStep, hcont]
  · have hcont : arrayContains sC.set intMin = true := by
      rw [arrayContains_iff, hC]
      exact hmem
    have hgi' : getIndex sC.set intMin = some sC.size := by
      rw [hC, hCsize]
      exact hgi
    simp [clockStep, hcont, hgi']

theorem claim10_sentinel_hit_witness :
    lruStep 2 [] intMin ⟨[5, intMin], 1, 0⟩ = some ⟨[5, intMin], 1, 0⟩ ∧
    fifoStep 2 intMin ⟨[5, intMin], 1, 0, 0⟩ = ⟨[5, intMin], 1, 0, 0⟩ ∧
    clockStep 2 intMin ⟨[5, intMin], [0, 0], 1, 0, 0⟩ =
      some ⟨[5, intMin], ([0, 0] : List Int).set 1 1, 1, 0, 0⟩ :=
  claim10_sentinel_hit 2 [] [5] 1 ⟨[5, intMin], 1, 0⟩ ⟨[5, intMin], 1, 0, 0⟩
    ⟨[5, intMin], [0, 0], 1, 0, 0⟩ (by decide) (by decide) rfl rfl rfl rfl
